import Mathlib

/-!
# Verification of the DeepRepoSlides repository indexing engine and section pipeline

This file shallowly embeds the core of the `analyzer-core` and `site-mdbook`
crates: the repository walker (`Analyzer::analyze_repo`), path exclusion
(`Analyzer::should_exclude`), language classification
(`Analyzer::detect_language`), the per-language dependency extractors, the
brute-force searcher (`Index::search`), and the concurrent section pipeline
(`MdBookBuilder::build_wiki`).

Modelling conventions:
* File-system paths are `/`-separated strings; `std::path::Path` accessors
  (`file_name`, `extension`, `file_stem`, parent's file name) are modelled on
  that representation.
* The file-system walk performed by `WalkDir` is an explicit list of walk
  events (`WalkEntry`): a directory-entry error, a directory, or a regular
  file carrying the outcome of the later `fs::metadata` call (byte size, or
  `none` for a metadata error) and of the later `fs::read_to_string` call
  (full text, or `none` for a read error).
* `HashSet` insertion and `HashMap::entry(..).or_insert` key insertion are
  modelled as duplicate-free lists in insertion order; values of the
  dependency map are always the empty vector in the source, so only its key
  set is carried.
* `f64` scores are modelled as exact rationals `ℚ`; the score arithmetic in
  the source (occurrence counts and one division) is deterministic in IEEE
  semantics, so determinism statements transfer.
* Rust byte indices into strings are modelled as character indices (exact on
  ASCII text).
* The regular expressions in the source are fixed literals; each one is
  embedded as a direct scanner implementing its leftmost, non-overlapping
  match semantics (greedy quantifiers resolved as a backtracking engine
  would).  Scanners recurse on an explicit fuel argument that is always
  instantiated with more than the input length, which every step consumes.
-/

namespace DeepRepoSlides

/-! ## String and path helpers (models of Rust std functions)

All string manipulation is implemented structurally over `List Char` (with
explicit fuel where the recursion is not structural), so that every
definition in this file evaluates by kernel reduction on concrete inputs. -/

/-- The single-quote character, written via its code point. -/
def squote : Char := Char.ofNat 39

/-- The double-quote character, written via its code point. -/
def dquote : Char := Char.ofNat 34

/-- Split at the first occurrence of a non-empty separator: the part before
it and the part after it, or `none` when it does not occur. -/
def breakOn (sep : List Char) : Nat → List Char → Option (List Char × List Char)
  | 0, _ => none
  | fuel+1, hay =>
    if sep.isPrefixOf hay then some ([], hay.drop sep.length)
    else
      match hay with
      | [] => none
      | c :: rest => (breakOn sep fuel rest).map (fun pr => (c :: pr.1, pr.2))

/-- Split on every occurrence of a non-empty separator, left to right and
non-overlapping; the semantics shared by Rust `str::split` and Lean
`String.splitOn`. -/
def splitOnL (sep : List Char) : Nat → List Char → List (List Char)
  | 0, cs => [cs]
  | fuel+1, cs =>
    match breakOn sep (cs.length + 1) cs with
    | none => [cs]
    | some (pre, post) => pre :: splitOnL sep fuel post

/-- String-level split on a non-empty separator. -/
def strSplitOn (s sep : String) : List String :=
  if sep.data.isEmpty then [s]
  else (splitOnL sep.data (s.length + 1) s.data).map String.mk

/-- Whether the needle occurs somewhere in the haystack. -/
def hasSubList (needle : List Char) : Nat → List Char → Bool
  | 0, _ => false
  | fuel+1, hay =>
    needle.isPrefixOf hay ||
      match hay with
      | [] => false
      | _ :: rest => hasSubList needle fuel rest

/-- Substring containment, modelling Rust `str::contains` for a string
needle.  An empty needle is contained in every string. -/
def containsSub (hay sub : String) : Bool :=
  if sub.data.isEmpty then true else hasSubList sub.data (hay.length + 1) hay.data

/-- Replace every occurrence of a non-empty pattern, left to right and
non-overlapping; the semantics shared by Rust `str::replace` and Lean
`String.replace`. -/
def replaceAllL (pat repl : List Char) : Nat → List Char → List Char
  | 0, cs => cs
  | fuel+1, cs =>
    if pat.isPrefixOf cs && !pat.isEmpty then
      repl ++ replaceAllL pat repl fuel (cs.drop pat.length)
    else
      match cs with
      | [] => []
      | c :: rest => c :: replaceAllL pat repl fuel rest

/-- String-level replacement of a non-empty pattern. -/
def strReplace (s pat repl : String) : String :=
  String.mk (replaceAllL pat.data repl.data (s.length + 1) s.data)

/-- Rust `str::trim`: strip whitespace from both ends. -/
def strTrim (s : String) : String :=
  String.mk (((s.data.dropWhile Char.isWhitespace).reverse.dropWhile
    Char.isWhitespace).reverse)

/-- Last `/`-separated component of a path, modelling `Path::file_name`
(with `unwrap_or("")` as used by the source). -/
def fileName (p : String) : String :=
  (strSplitOn p "/").getLastD ""

/-- The file name of the parent directory, modelling
`path.parent().and_then(|p| p.file_name())` on a `/`-separated path. -/
def parentName (p : String) : Option String :=
  let segs := strSplitOn p "/"
  if h : segs.length ≥ 2 then some (segs.get ⟨segs.length - 2, by omega⟩) else none

/-- Extension of a file name, modelling Rust `Path::extension`: the portion
after the final `.`; `none` when there is no `.`, or when the only `.` is the
leading one of a dot-file. -/
def rustExtension (name : String) : Option String :=
  match strSplitOn name "." with
  | [] => none
  | [_] => none
  | ["", _] => none
  | parts => parts.getLast?

/-- Stem of a file name, modelling Rust `Path::file_stem`: the portion before
the final extension, or the whole name when there is none. -/
def rustFileStem (name : String) : String :=
  match rustExtension name with
  | none => name
  | some ext => String.mk (name.data.take (name.data.length - (ext.length + 1)))

/-- Rust `str::lines`: split on `\n`, drop a final empty piece produced by a
trailing newline, and strip one trailing `\r` from each line. -/
def rustLines (s : String) : List String :=
  if s.data.isEmpty then []
  else
    let parts := splitOnL ['\n'] (s.data.length + 1) s.data
    let parts := if s.data.getLast? == some '\n' then parts.dropLast else parts
    parts.map (fun l => String.mk (if l.getLast? == some '\r' then l.dropLast else l))

/-- One splitting step of `split_whitespace`: skip whitespace, then take a
maximal non-empty word. -/
def splitWsL : Nat → List Char → List (List Char)
  | 0, _ => []
  | fuel+1, cs =>
    let cs' := cs.dropWhile Char.isWhitespace
    match cs' with
    | [] => []
    | _ =>
      let w := cs'.takeWhile (fun c => !c.isWhitespace)
      w :: splitWsL fuel (cs'.drop w.length)

/-- Rust `str::split_whitespace`: the non-empty maximal runs of
non-whitespace characters. -/
def splitWhitespace (s : String) : List String :=
  (splitWsL (s.length + 1) s.data).map String.mk

/-! ## `Analyzer::detect_language` (src/crates/analyzer-core/src/lib.rs:189) -/

/-- `Analyzer::detect_language`: map the path's extension through the fixed
case-sensitive table; `none` means the file is unsupported. -/
def detect_language (path : String) : Option String :=
  match rustExtension (fileName path) with
  | none => none
  | some ext =>
    match ext with
    | "ts" | "tsx" => some "ts"
    | "js" | "jsx" | "mjs" | "cjs" => some "js"
    | "py" => some "py"
    | "go" => some "go"
    | "rs" => some "rs"
    | "java" => some "java"
    | _ => none

/-- The extension table exactly as the specification states it
(`ts,tsx→ts`; `js,jsx,mjs,cjs→js`; `py→py`; `go→go`; `rs→rs`;
`java→java`), written from the spec's words for comparison with
`detect_language`. -/
def specLanguageTable (ext : String) : Option String :=
  if ext = "ts" ∨ ext = "tsx" then some "ts"
  else if ext = "js" ∨ ext = "jsx" ∨ ext = "mjs" ∨ ext = "cjs" then some "js"
  else if ext = "py" then some "py"
  else if ext = "go" then some "go"
  else if ext = "rs" then some "rs"
  else if ext = "java" then some "java"
  else none

/-! ## Dependency extractors (src/crates/analyzer-core/src/lib.rs:210-313)

Each Rust regular expression is a fixed literal; it is embedded as a scanner
over the character list with the regex crate's leftmost, non-overlapping
`captures_iter` semantics. -/

/-- Match of `['"]([^'"]+)['"]` at the head of the input: an opening quote of
either kind, a non-empty run of non-quote characters (the capture), and a
closing quote of either kind.  Returns the capture and the rest after the
closing quote. -/
def quotedTokenAt (cs : List Char) : Option (List Char × List Char) :=
  match cs with
  | [] => none
  | c :: rest =>
    if c == squote || c == dquote then
      let tok := rest.takeWhile (fun ch => !(ch == squote || ch == dquote))
      let after := rest.drop tok.length
      match after with
      | c2 :: tail =>
        if (c2 == squote || c2 == dquote) && !tok.isEmpty then some (tok, tail) else none
      | [] => none
    else none

/-- Match of `from\s+['"]([^'"]+)['"]` at the head of the input: the literal
`from`, at least one whitespace character (greedily consumed; the following
quote is never whitespace, so no backtracking arises), then a quoted token. -/
def fromQuotedAt (cs : List Char) : Option (List Char × List Char) :=
  match cs with
  | 'f' :: 'r' :: 'o' :: 'm' :: rest =>
    match rest with
    | c :: _ =>
      if c.isWhitespace then quotedTokenAt (rest.dropWhile Char.isWhitespace)
      else none
    | [] => none
  | _ => none

/-- Greedy resolution of `.*from\s+['"]([^'"]+)['"]` after a matched keyword:
`.*` cannot cross a newline, so `from` must start within the current line;
greediness picks the last such start from which the tail matches. -/
def lastViableFrom (rest : List Char) : Option (List Char × List Char) :=
  let lineLen := (rest.takeWhile (fun ch => ch != '\n')).length
  (List.range (lineLen + 1)).reverse.findSome? (fun k => fromQuotedAt (rest.drop k))

/-- All captures of `(?:import|export).*from\s+['"]([^'"]+)['"]` in input
order, non-overlapping (`Regex::captures_iter`). -/
def jsImportMatches : Nat → List Char → List String
  | 0, _ => []
  | _, [] => []
  | fuel+1, c :: rest =>
    let cs := c :: rest
    if cs.take 6 = "import".data || cs.take 6 = "export".data then
      match lastViableFrom (cs.drop 6) with
      | some (tok, tail) => String.mk tok :: jsImportMatches fuel tail
      | none => jsImportMatches fuel rest
    else jsImportMatches fuel rest

/-- All captures of `require\s*\(\s*['"]([^'"]+)['"]` in input order,
non-overlapping. -/
def requireMatches : Nat → List Char → List String
  | 0, _ => []
  | _, [] => []
  | fuel+1, c :: rest =>
    let cs := c :: rest
    if cs.take 7 = "require".data then
      match cs.drop 7 |>.dropWhile Char.isWhitespace with
      | '(' :: inner =>
        match quotedTokenAt (inner.dropWhile Char.isWhitespace) with
        | some (tok, tail) => String.mk tok :: requireMatches fuel tail
        | none => requireMatches fuel rest
      | _ => requireMatches fuel rest
    else requireMatches fuel rest

/-- `Analyzer::extract_js_dependencies`: the `import`/`export … from`
captures followed by the `require(…)` captures (two regex passes run in
sequence by the source). -/
def extract_js_dependencies (content : String) : List String :=
  jsImportMatches (content.length + 1) content.data
    ++ requireMatches (content.length + 1) content.data

/-- One line's capture for `^(?:import|from)\s+([^\s]+)`
(`Regex::captures` anchored at the start of the line). -/
def pyLineDep (line : String) : Option String :=
  let cs := line.data
  let afterKw : Option (List Char) :=
    if cs.take 6 = "import".data then some (cs.drop 6)
    else if cs.take 4 = "from".data then some (cs.drop 4)
    else none
  match afterKw with
  | none => none
  | some rest =>
    match rest with
    | [] => none
    | c :: _ =>
      if c.isWhitespace then
        let tok := (rest.dropWhile Char.isWhitespace).takeWhile (fun ch => !ch.isWhitespace)
        if tok.isEmpty then none else some (String.mk tok)
      else none

/-- `Analyzer::extract_py_dependencies`: the per-line captures in line
order. -/
def extract_py_dependencies (content : String) : List String :=
  (rustLines content).filterMap pyLineDep

/-- All captures of `["']([^"']+)["']` within one line of a parenthesised
Go-style block of imports, in order. -/
def goLineTokens : Nat → List Char → List String
  | 0, _ => []
  | _, [] => []
  | fuel+1, c :: rest =>
    match quotedTokenAt (c :: rest) with
    | some (tok, tail) => String.mk tok :: goLineTokens fuel tail
    | none => goLineTokens fuel rest

/-- All dependency tokens produced by
`import\s+(?:\(([^)]+)\)|["']([^"']+)["'])` with the source's handling: a
quoted capture is pushed directly; a parenthesised block is re-scanned line
by line with `["']([^"']+)["']`. -/
def goImportMatches : Nat → List Char → List String
  | 0, _ => []
  | _, [] => []
  | fuel+1, c :: rest =>
    let cs := c :: rest
    if cs.take 6 = "import".data then
      match cs.drop 6 with
      | [] => goImportMatches fuel rest
      | a :: _ =>
        if a.isWhitespace then
          match cs.drop 6 |>.dropWhile Char.isWhitespace with
          | '(' :: inner =>
            let block := inner.takeWhile (fun ch => ch != ')')
            match inner.drop block.length with
            | ')' :: tail =>
              if block.isEmpty then goImportMatches fuel rest
              else
                ((rustLines (String.mk block)).map
                    (fun l => goLineTokens (l.length + 1) l.data)).flatten
                  ++ goImportMatches fuel tail
            | _ => goImportMatches fuel rest
          | other =>
            match quotedTokenAt other with
            | some (tok, tail) => String.mk tok :: goImportMatches fuel tail
            | none => goImportMatches fuel rest
        else goImportMatches fuel rest
    else goImportMatches fuel rest

/-- `Analyzer::extract_go_dependencies`. -/
def extract_go_dependencies (content : String) : List String :=
  goImportMatches (content.length + 1) content.data

/-- Match of `use\s+([^;]+);` at the head of the input: the literal `use`, a
first whitespace character, then a maximal run of non-`;` characters of
total length at least 2 ending at a `;`.  Returns the capture (greedy `\s+`
leaves the remainder after the maximal whitespace run to `[^;]+`, falling
back to the run's final character when nothing remains) and the rest after
the semicolon. -/
def rustUseAt (cs : List Char) : Option (List Char × List Char) :=
  match cs with
  | 'u' :: 's' :: 'e' :: c :: rest =>
    if c.isWhitespace then
      let body := (c :: rest).takeWhile (fun ch => ch != ';')
      match (c :: rest).drop body.length with
      | ';' :: tail =>
        if 2 ≤ body.length then
          let r := body.dropWhile Char.isWhitespace
          some (if r.isEmpty then body.drop (body.length - 1) else r, tail)
        else none
      | _ => none
    else none
  | _ => none

/-- All captures of `use\s+([^;]+);` in input order, non-overlapping. -/
def rustUseMatches : Nat → List Char → List String
  | 0, _ => []
  | _, [] => []
  | fuel+1, c :: rest =>
    match rustUseAt (c :: rest) with
    | some (cap, tail) => String.mk cap :: rustUseMatches fuel tail
    | none => rustUseMatches fuel rest

/-- `Analyzer::extract_rust_dependencies`: for each `use <path>;` capture,
trim it, skip it unless it contains `::` or a brace, and otherwise push the
trimmed first `::`-segment. -/
def extract_rust_dependencies (content : String) : List String :=
  (rustUseMatches (content.length + 1) content.data).filterMap (fun capStr =>
    let path := strTrim capStr
    if !containsSub path "::" && !containsSub path "\x7b" then none
    else some (strTrim ((strSplitOn path "::").headD "")))

/-! ## `Analyzer::should_exclude` (src/crates/analyzer-core/src/lib.rs:417)

The source turns each exclude pattern into a regex string by the replacement
chain `replace("**", ".*")`, then `replace("*", "[^/]*")`, then
`replace(".", "\\.")`, wraps it in `^…$`, and tests `Regex::is_match`; a
pattern whose regex fails to compile never matches.  The produced regex is
matched here by a small engine over literal characters, `\`-escaped
literals, `.`, the class `[^/]`, and postfix `*`; those are exactly the
constructs the chain produces from glob patterns built of path characters
and stars.  Other regex metacharacters are treated as literal characters;
no theorem below depends on a pattern containing them. -/

/-- The backslash character, written via its code point. -/
def bslash : Char := Char.ofNat 92

/-- One token of the produced regex: a literal character, `.` (any character
except newline), or the class `[^/]`. -/
inductive RTok where
  | lit (c : Char)
  | anyChar
  | notSlash
deriving Repr, DecidableEq

/-- Whether a single regex token accepts a character.  `.` does not match a
newline (the regex crate's default). -/
def tokMatches : RTok → Char → Bool
  | .lit c, d => c == d
  | .anyChar, d => d != '\n'
  | .notSlash, d => d != '/'

/-- Parse a regex string into tokens, each with a flag recording a postfix
`*`. -/
def parseRegex : Nat → List Char → List (RTok × Bool)
  | 0, _ => []
  | _, [] => []
  | fuel+1, c :: rest =>
    let (tok, rest') : RTok × List Char :=
      if c == bslash then
        match rest with
        | d :: rest2 => (.lit d, rest2)
        | [] => (.lit c, [])
      else if c == '[' then
        match rest with
        | '^' :: '/' :: ']' :: rest2 => (.notSlash, rest2)
        | _ => (.lit c, rest)
      else if c == '.' then (.anyChar, rest)
      else (.lit c, rest)
    match rest' with
    | '*' :: rest2 => (tok, true) :: parseRegex fuel rest2
    | _ => (tok, false) :: parseRegex fuel rest'

/-- Anchored (full-string) regex matching of a token list, the meaning of
`^…$` with `Regex::is_match`.  The recursion depth is bounded by the number
of tokens plus the input length, which every caller exceeds with the fuel. -/
def rmatch : Nat → List (RTok × Bool) → List Char → Bool
  | 0, _, _ => false
  | fuel+1, r, cs =>
    match r, cs with
    | [], [] => true
    | [], _ :: _ => false
    | (_, false) :: _, [] => false
    | (tok, false) :: ts, c :: cs' => tokMatches tok c && rmatch fuel ts cs'
    | (tok, true) :: ts, cs =>
      rmatch fuel ts cs ||
        (match cs with
         | [] => false
         | c :: cs' => tokMatches tok c && rmatch fuel ((tok, true) :: ts) cs')

/-- The replacement chain of `Analyzer::should_exclude`, exactly in source
order. -/
def globToRegex (pattern : String) : String :=
  strReplace (strReplace (strReplace pattern "**" ".*") "*" "[^/]*") "." "\\."

/-- `Analyzer::should_exclude`: the path is excluded when the
regex produced from at least one pattern matches the whole path. -/
def should_exclude (path : String) (excludePatterns : List String) : Bool :=
  excludePatterns.any (fun pattern =>
    let re := globToRegex pattern
    let toks := parseRegex (re.length + 1) re.data
    rmatch (toks.length + path.length + 1) toks path.data)

/-- The exclusion semantics exactly as the specification states it, written
from the spec's words for comparison with `should_exclude`: each pattern is
an anchored restricted glob where `**` matches any sequence of path segments
and `*` matches any run of non-separator characters. -/
inductive GTok where
  | lit (c : Char)
  | star
  | dstar
deriving Repr, DecidableEq

/-- Parse a glob pattern into spec-side tokens (`**` before `*`). -/
def parseGlob : Nat → List Char → List GTok
  | 0, _ => []
  | _, [] => []
  | fuel+1, '*' :: '*' :: rest => .dstar :: parseGlob fuel rest
  | fuel+1, '*' :: rest => .star :: parseGlob fuel rest
  | fuel+1, c :: rest => .lit c :: parseGlob fuel rest

/-- Anchored matching of spec-side glob tokens: `**` matches any character
sequence, `*` any run of non-`/` characters. -/
def gmatch : Nat → List GTok → List Char → Bool
  | 0, _, _ => false
  | fuel+1, g, cs =>
    match g, cs with
    | [], [] => true
    | [], _ :: _ => false
    | .lit _ :: _, [] => false
    | .lit c :: gs, d :: cs' => c == d && gmatch fuel gs cs'
    | .star :: gs, cs =>
      gmatch fuel gs cs ||
        (match cs with
         | [] => false
         | c :: cs' => c != '/' && gmatch fuel (.star :: gs) cs')
    | .dstar :: gs, cs =>
      gmatch fuel gs cs ||
        (match cs with
         | [] => false
         | _ :: cs' => gmatch fuel (.dstar :: gs) cs')

/-- The spec's contract for `shouldExclude`: some pattern matches the whole
path under restricted-glob semantics. -/
def specShouldExclude (path : String) (excludePatterns : List String) : Bool :=
  excludePatterns.any (fun pattern =>
    let toks := parseGlob (pattern.length + 1) pattern.data
    gmatch (toks.length + path.length + 1) toks path.data)

/-! ## Configuration (src/crates/config/src/lib.rs)

Only the fields the embedded core reads are modelled. -/

/-- `config::ProjectConfig` (the fields read by the core). -/
structure ProjectConfig where
  name : String
  exclude : List String
deriving Repr, DecidableEq

/-- `config::AnalysisConfig` (the fields read by the core). -/
structure AnalysisConfig where
  max_file_kb : Nat
  infer_entrypoints : List String
deriving Repr, DecidableEq

/-- `config::Config` (the sections read by the core). -/
structure Config where
  project : ProjectConfig
  analysis : AnalysisConfig
deriving Repr, DecidableEq

/-! ## The Index data model (src/crates/analyzer-core/src/lib.rs:436-476) -/

/-- `analyzer_core::FileInfo`. -/
structure FileInfo where
  path : String
  name : String
  language : String
  size : Nat
  dependencies : List String
  is_module : Bool
  content : Option String
deriving Repr, DecidableEq

/-- `analyzer_core::ModuleInfo`. -/
structure ModuleInfo where
  path : String
  name : String
  language : String
  dependencies : List String
deriving Repr, DecidableEq

/-- `analyzer_core::IndexStats`. -/
structure IndexStats where
  files : Nat
  languages : List String
  modules : Nat
deriving Repr, DecidableEq

/-- `analyzer_core::Index`.  `dependencies` carries the key set of the
source's `HashMap<String, Vec<String>>` in insertion order; its values are
always the empty vector in the source. -/
structure Index where
  id : String
  repo_path : String
  files : List FileInfo
  modules : List ModuleInfo
  languages : List String
  dependencies : List String
  entrypoints : List String
  stats : IndexStats
deriving Repr, DecidableEq

/-! ## The repository walk (src/crates/analyzer-core/src/lib.rs:56-180) -/

/-- One event of the `WalkDir` traversal in file-system order.  A `file`
event carries the outcomes of the subsequent `fs::metadata` call (byte
length, or `none` when the metadata query fails) and `fs::read_to_string`
call (full text, or `none` when the read fails). -/
inductive WalkEntry where
  | entryErr
  | dir (path : String)
  | file (path : String) (meta : Option Nat) (readResult : Option String)
deriving Repr, DecidableEq

/-- The error surfaced by `analyze_repo` through `?`: a directory-entry
error from `WalkDir` (`entry?`), or a failed `fs::metadata(path)?`. -/
inductive AnalyzeError where
  | walkEntry
  | metadata (path : String)
deriving Repr, DecidableEq

/-- The mutable accumulators of the walk loop. -/
structure WalkState where
  files : List FileInfo
  modules : List ModuleInfo
  dependencies : List String
  languages : List String
deriving Repr, DecidableEq

/-- Insertion into a `HashSet` (or `HashMap::entry(..).or_insert`) modelled
as a duplicate-free list in insertion order. -/
def insertDedup (l : List String) (x : String) : List String :=
  if l.contains x then l else l ++ [x]

/-- `Analyzer::is_module_file`. -/
def is_module_file (path : String) (language : String) : Bool :=
  let file_name := fileName path
  let parent := parentName path
  match language with
  | "ts" | "js" =>
    file_name == "index.ts" || file_name == "index.js" || file_name == "index.tsx"
      || file_name == "index.jsx" || parent == some "src" || parent == some "lib"
  | "py" => file_name == "__init__.py" || parent == some "src" || parent == some "lib"
  | "go" => parent == some "cmd" || parent == some "pkg"
  | "rs" => file_name == "lib.rs" || parent == some "src"
  | _ => false

/-- `Analyzer::analyze_file`: `none` models its `Err` (the only fallible
step is `fs::read_to_string`, whose outcome is the `readResult` of the walk
event); on success the record keeps the full text and its byte length. -/
def analyze_file (path : String) (language : String) (readResult : Option String) :
    Option FileInfo :=
  match readResult with
  | none => none
  | some content =>
    let fn := fileName path
    let name := if fn.data.isEmpty then "unknown" else rustFileStem fn
    let dependencies :=
      match language with
      | "ts" | "js" | "tsx" | "jsx" => extract_js_dependencies content
      | "py" => extract_py_dependencies content
      | "go" => extract_go_dependencies content
      | "rs" => extract_rust_dependencies content
      | _ => []
    some { path := path, name := name, language := language,
           size := content.utf8ByteSize, dependencies := dependencies,
           is_module := is_module_file path language, content := some content }

/-- A `for` loop whose body may exit early through `?`, modelling the
source's traversal loops over `Except`. -/
def exceptFoldl {σ α ε : Type} (f : σ → α → Except ε σ) : σ → List α → Except ε σ
  | s, [] => .ok s
  | s, a :: as =>
    match f s a with
    | .error e => .error e
    | .ok s' => exceptFoldl f s' as

/-- One iteration of the walk loop of `Analyzer::analyze_repo`: a
directory-entry error and a metadata failure propagate through `?`; an
excluded, oversized or unsupported file is skipped; a failure of
`analyze_file` is logged and skipped; otherwise the records are appended. -/
def analyzeStep (cfg : Config) (st : WalkState) (e : WalkEntry) :
    Except AnalyzeError WalkState :=
  match e with
  | .entryErr => .error .walkEntry
  | .dir _ => .ok st
  | .file path meta readResult =>
    if should_exclude path cfg.project.exclude then .ok st
    else
      match meta with
      | none => .error (.metadata path)
      | some sizeBytes =>
        if sizeBytes / 1024 > cfg.analysis.max_file_kb then .ok st
        else
          match detect_language path with
          | none => .ok st
          | some lang =>
            let st1 := { st with languages := insertDedup st.languages lang }
            match analyze_file path lang readResult with
            | none => .ok st1
            | some fi =>
              let st2 := { st1 with files := st1.files ++ [fi] }
              let st3 :=
                if fi.is_module then
                  { st2 with modules := st2.modules ++
                      [{ path := path, name := fi.name, language := lang,
                         dependencies := fi.dependencies }] }
                else st2
              .ok { st3 with
                    dependencies := fi.dependencies.foldl insertDedup st3.dependencies }

/-- Whether a path exists in the walked tree, modelling `Path::exists` for
the entry-point probes. -/
def pathExists (walk : List WalkEntry) (p : String) : Bool :=
  walk.any (fun e =>
    match e with
    | .dir q => q == p
    | .file q _ _ => q == p
    | .entryErr => false)

/-- `Path::join` on `/`-separated path strings. -/
def joinPath (root rel : String) : String := root ++ "/" ++ rel

/-- One entry of the wildcard tree walk inside `infer_entrypoints`: a
directory-entry error propagates through `?`; every regular file whose base
name is `main.ts` or `index.ts` is collected, with no directory-prefix
filter. -/
def wildcardStep (acc : List String) (e : WalkEntry) : Except AnalyzeError (List String) :=
  match e with
  | .entryErr => .error .walkEntry
  | .dir _ => .ok acc
  | .file p _ _ =>
    let n := fileName p
    .ok (if n == "main.ts" || n == "index.ts" then acc ++ [p] else acc)

/-- The full tree walk performed for each wildcard entry-point pattern. -/
def wildcardScan (walk : List WalkEntry) : Except AnalyzeError (List String) :=
  exceptFoldl wildcardStep [] walk

/-- The fixed candidate pattern list of `Analyzer::infer_entrypoints`. -/
def entrypointPatterns : List String :=
  ["main.ts", "main.js", "index.ts", "index.js", "main.py", "__main__.py",
   "main.go", "main.rs", "cmd/**/main.go", "apps/**/src/main.ts",
   "apps/**/src/index.ts"]

/-- One candidate pattern of `Analyzer::infer_entrypoints`: a pattern
containing `**` triggers a fresh tree walk; any other pattern is probed by
joining it to the root. -/
def entrypointStep (repoPath : String) (walk : List WalkEntry)
    (acc : List String) (pattern : String) : Except AnalyzeError (List String) :=
  if containsSub pattern "**" then
    match wildcardScan walk with
    | .error e => .error e
    | .ok found => .ok (acc ++ found)
  else
    .ok (if pathExists walk (joinPath repoPath pattern) then
           acc ++ [joinPath repoPath pattern]
         else acc)

/-- `Analyzer::infer_entrypoints`: configured hints that exist under the
root, followed by the fixed candidate patterns. -/
def infer_entrypoints (repoPath : String) (walk : List WalkEntry) (cfg : Config) :
    Except AnalyzeError (List String) :=
  let hintEps := cfg.analysis.infer_entrypoints.filterMap (fun ep =>
    if pathExists walk (joinPath repoPath ep) then some (joinPath repoPath ep)
    else none)
  exceptFoldl (entrypointStep repoPath walk) hintEps entrypointPatterns

/-- `Analyzer::analyze_repo`: run the walk loop, infer entry points, and
assemble the `Index` with its computed `IndexStats`.  The generated
`uuid::Uuid::new_v4` identifier is taken as the `buildId` input. -/
def analyze_repo (repoPath : String) (walk : List WalkEntry) (cfg : Config)
    (buildId : String) : Except AnalyzeError Index :=
  match exceptFoldl (analyzeStep cfg) ⟨[], [], [], []⟩ walk with
  | .error e => .error e
  | .ok st =>
    match infer_entrypoints repoPath walk cfg with
    | .error e => .error e
    | .ok eps =>
      .ok { id := buildId
            repo_path := repoPath
            files := st.files
            modules := st.modules
            languages := st.languages
            dependencies := st.dependencies
            entrypoints := eps
            stats := { files := st.files.length, languages := st.languages,
                       modules := st.modules.length } }

/-! ## `Index::search` (src/crates/analyzer-core/src/lib.rs:487-539)

`f64` scores are modelled as exact rationals; `Vec::sort_by` is a stable
sort and the comparator `b.score.partial_cmp(&a.score).unwrap_or(Equal)`
orders by descending score with ties keeping input order, which
`List.mergeSort` with a non-strict ≥ test reproduces.  Rust byte indices
into the text are modelled as character indices. -/

/-- Per-character lowercasing, modelling `str::to_lowercase`. -/
def toLowerStr (s : String) : String := String.mk (s.data.map Char.toLower)

/-- Non-overlapping occurrence count of a non-empty needle, modelling
`str::matches(word).count()`.  (`split_whitespace` never yields an empty
word, so the empty-needle case is unreachable.) -/
def countOccs : Nat → List Char → List Char → Nat
  | 0, _, _ => 0
  | fuel+1, needle, hay =>
    match hay with
    | [] => 0
    | _ :: rest =>
      if !needle.isEmpty && needle.isPrefixOf hay then
        1 + countOccs fuel needle (hay.drop needle.length)
      else countOccs fuel needle rest

/-- `Index::calculate_score`: summed occurrence counts of the query's
whitespace-split terms, divided by the term count plus one. -/
def calculate_score (content query : String) : ℚ :=
  let words := splitWhitespace query
  let score : ℚ := words.foldl
    (fun acc w => acc + (countOccs (content.length + 1) w.data content.data : ℚ)) 0
  score / (words.length + 1)

/-- First index at which the needle occurs, modelling `str::find`. -/
def findSubIdx : Nat → List Char → List Char → Option Nat
  | 0, _, _ => none
  | fuel+1, needle, hay =>
    if needle.isPrefixOf hay then some 0
    else
      match hay with
      | [] => none
      | _ :: rest => (findSubIdx fuel needle rest).map (· + 1)

/-- `Index::extract_excerpt`: a window of half-width `maxLen / 2` around the
first (case-insensitive) occurrence of the query, or the first `maxLen`
characters when the query is absent. -/
def extract_excerpt (content query : String) (maxLen : Nat) : String :=
  match findSubIdx (content.length + 1) query.data (toLowerStr content).data with
  | some pos =>
    let start := pos - maxLen / 2
    let stop := min (pos + query.length + maxLen / 2) content.length
    "..." ++ String.mk ((content.data.drop start).take (stop - start)) ++ "..."
  | none => String.mk (content.data.take (min content.length maxLen)) ++ "..."

/-- `analyzer_core::SearchHit` (score as an exact rational). -/
structure SearchHit where
  path : String
  score : ℚ
  excerpt : String
deriving Repr, DecidableEq

/-- The filtering pass of `Index::search`: every file with retained content
containing the lowercased query contributes a hit, in file order. -/
def searchHitsRaw (files : List FileInfo) (queryLower : String) : List SearchHit :=
  files.filterMap (fun file =>
    match file.content with
    | none => none
    | some content =>
      let contentLower := toLowerStr content
      if containsSub contentLower queryLower then
        some { path := file.path
               score := calculate_score contentLower queryLower
               excerpt := extract_excerpt content queryLower 100 }
      else none)

/-- `Index::search`: filter, stable-sort by descending score, truncate to
`k`. -/
def Index.search (idx : Index) (query : String) (k : Nat) : List SearchHit :=
  let queryLower := toLowerStr query
  let hits := searchHitsRaw idx.files queryLower
  (hits.mergeSort (fun a b => decide (b.score ≤ a.score))).take k

/-! ## `MdBookBuilder::build_wiki` (src/crates/site-mdbook/src/lib.rs:67-185)

The pipeline is embedded against abstract task bodies: each spawned task's
eventual outcome is an input (`TaskOutcome`), covering a produced value, an
`Err` return, and a panic surfacing as a `JoinError` of `handle.await`.
Section tasks are awaited with `handle.await??`, so both failure kinds
propagate; module tasks are awaited with `if let Ok(Ok(c))`, so both
failure kinds drop only that module's segment.  The file-system writes
(`book.toml`, `SUMMARY.md`, the per-section files, `modules.md`) and the
external `mdbook` invocation are plumbing outside this core and modelled as
succeeding; the content written to `modules.md` is returned so that it can
be observed. -/

/-- The outcome of one spawned task as seen at its `handle.await`. -/
inductive TaskOutcome (α : Type) where
  | ok (val : α)
  | err
  | panicked
deriving Repr, DecidableEq

/-- Whether a task outcome is a success. -/
def TaskOutcome.isOk {α : Type} : TaskOutcome α → Bool
  | .ok _ => true
  | .err => false
  | .panicked => false

/-- The error with which `build_wiki` returns when a section task fails:
its `Err` propagated by the inner `?`, or the `JoinError` propagated by the
outer `?`. -/
inductive BuildError where
  | sectionErr
  | joinErr
deriving Repr, DecidableEq

/-- `site_mdbook::WikiResult` (the `site_dir` path as a string). -/
structure WikiResult where
  ok : Bool
  site_dir : String
  pages : Nat
deriving Repr, DecidableEq

/-- The fan-in over the section handles (`for handle in section_handles
{ pages += handle.await?? }`): the first failing outcome aborts with its
error; otherwise the page counts are summed. -/
def collectPages : Nat → List (TaskOutcome Nat) → Except BuildError Nat
  | acc, [] => .ok acc
  | acc, .ok n :: rest => collectPages (acc + n) rest
  | _, .err :: _ => .error .sectionErr
  | _, .panicked :: _ => .error .joinErr

/-- The module-list header written at the top of `modules.md`, including one
link line per module in `Index.modules` order. -/
def modulesHeader (modules : List ModuleInfo) : String :=
  "# モジュール\n\n"
    ++ "このセクションでは、各モジュールについて詳しく説明します。\n\n"
    ++ "## モジュール一覧\n\n"
    ++ String.join (modules.map (fun m => "- [" ++ m.name ++ "](#" ++ m.name ++ ")\n"))
    ++ "\n\n---\n\n"

/-- The separator appended after each module's segment. -/
def moduleSep : String := "\n\n---\n\n"

/-- The fan-in over the module handles, in spawn order = `Index.modules`
order: each successful segment is appended with the separator; a failed or
panicked module task contributes nothing. -/
def modulesBody (modules : List ModuleInfo) (moduleRun : ModuleInfo → TaskOutcome String) :
    String :=
  modules.foldl
    (fun acc m =>
      match moduleRun m with
      | .ok c => acc ++ c ++ moduleSep
      | _ => acc)
    ""

/-- `MdBookBuilder::build_wiki` over abstract task outcomes: returns the
`WikiResult` and, when `modules` is in the table of contents, the full text
written to `modules.md`. -/
def build_wiki (index : Index) (toc : List String)
    (sectionRun : String → TaskOutcome Nat)
    (moduleRun : ModuleInfo → TaskOutcome String) :
    Except BuildError (WikiResult × Option String) :=
  match collectPages 0 (toc.map sectionRun) with
  | .error e => .error e
  | .ok pages =>
    .ok ({ ok := true, site_dir := "book", pages := pages },
         if toc.contains "modules" then
           some (modulesHeader index.modules ++ modulesBody index.modules moduleRun)
         else none)

/-! ## Completion-order model for the module fan-out

Module tasks run concurrently under the semaphore; each one writes its
result into its own buffer (the future held by its join handle), and the
fan-in reads the buffers in spawn order.  A completion schedule is the
order in which tasks finish writing their buffers; the fan-in result must
not depend on it. -/

/-- The buffer value task `i` writes: its segment on success, nothing on
failure. -/
def taskResult (modules : List ModuleInfo) (moduleRun : ModuleInfo → TaskOutcome String)
    (i : Nat) : Option String :=
  match modules[i]? with
  | none => none
  | some m =>
    match moduleRun m with
    | .ok c => some c
    | _ => none

/-- Run the tasks to completion in schedule order, each writing its own
buffer. -/
def completeAll (run : Nat → Option String) (schedule : List Nat) : Nat → Option String :=
  schedule.foldl (fun buf i => fun j => if j = i then run i else buf j) (fun _ => none)

/-- Concatenate the `n` buffers in spawn order, appending the separator
after each present segment (the fan-in of `build_wiki`). -/
def concatBuffers (n : Nat) (buf : Nat → Option String) : String :=
  (List.range n).foldl
    (fun acc j =>
      match buf j with
      | some c => acc ++ c ++ moduleSep
      | none => acc)
    ""

/-! ## Auxiliary predicates on results -/

/-- Whether an `Except` value is a success. -/
def exceptIsOk {ε α : Type} : Except ε α → Bool
  | .ok _ => true
  | .error _ => false

/-- A walk entry that is neither a directory-entry error nor a file whose
metadata query fails: exactly the entries the walk loop survives. -/
def entryOk : WalkEntry → Bool
  | .entryErr => false
  | .dir _ => true
  | .file _ meta _ => meta.isSome

/-- The four collections of an `Index` (and the stats computed from them)
that the walk loop itself populates — everything except the entry-point
list, the generated id and the root path. -/
def coreView : Except AnalyzeError Index →
    Option (List FileInfo × List ModuleInfo × List String × List String × IndexStats)
  | .error _ => none
  | .ok idx => some (idx.files, idx.modules, idx.languages, idx.dependencies, idx.stats)

/-- No file event of the walk carries the given path. -/
def noFileEvent (walk : List WalkEntry) (p : String) : Bool :=
  walk.all (fun e =>
    match e with
    | .file q _ _ => q != p
    | _ => true)

/-! ## Lemmas about the early-exit fold -/

theorem exceptFoldl_append {σ α ε : Type} (f : σ → α → Except ε σ) (s : σ)
    (l₁ l₂ : List α) :
    exceptFoldl f s (l₁ ++ l₂) =
      match exceptFoldl f s l₁ with
      | .error e => .error e
      | .ok s' => exceptFoldl f s' l₂ := by
  induction l₁ generalizing s with
  | nil => simp [exceptFoldl]
  | cons a as ih =>
    simp only [List.cons_append, exceptFoldl]
    cases f s a with
    | error e => rfl
    | ok s' => exact ih s'

theorem exceptFoldl_cons_ok {σ α ε : Type} (f : σ → α → Except ε σ) (s s' : σ)
    (a : α) (l : List α) (h : exceptFoldl f s (a :: l) = .ok s') :
    ∃ s₁, f s a = .ok s₁ ∧ exceptFoldl f s₁ l = .ok s' := by
  simp only [exceptFoldl] at h
  cases hfa : f s a with
  | error e => rw [hfa] at h; exact Except.noConfusion h
  | ok s₁ => rw [hfa] at h; exact ⟨s₁, rfl, h⟩

theorem exceptFoldl_append_ok {σ α ε : Type} (f : σ → α → Except ε σ) (s s' : σ)
    (l₁ l₂ : List α) (h : exceptFoldl f s (l₁ ++ l₂) = .ok s') :
    ∃ s₁, exceptFoldl f s l₁ = .ok s₁ ∧ exceptFoldl f s₁ l₂ = .ok s' := by
  rw [exceptFoldl_append] at h
  cases hst : exceptFoldl f s l₁ with
  | error e => rw [hst] at h; exact Except.noConfusion h
  | ok s₁ => rw [hst] at h; exact ⟨s₁, rfl, h⟩

theorem exceptFoldl_append_of {σ α ε : Type} (f : σ → α → Except ε σ) (s s₁ s' : σ)
    (l₁ l₂ : List α) (h₁ : exceptFoldl f s l₁ = .ok s₁)
    (h₂ : exceptFoldl f s₁ l₂ = .ok s') :
    exceptFoldl f s (l₁ ++ l₂) = .ok s' := by
  rw [exceptFoldl_append, h₁]; exact h₂

theorem exceptFoldl_invariant {σ α ε : Type} (f : σ → α → Except ε σ) (P : σ → Prop)
    (hf : ∀ s a s', f s a = .ok s' → P s → P s') :
    ∀ (l : List α) (s s' : σ), exceptFoldl f s l = .ok s' → P s → P s' := by
  intro l
  induction l with
  | nil =>
    intro s s' h hp
    simp only [exceptFoldl] at h
    exact (Except.ok.inj h) ▸ hp
  | cons a as ih =>
    intro s s' h hp
    obtain ⟨s₁, hfa, hrest⟩ := exceptFoldl_cons_ok f s s' a as h
    exact ih s₁ s' hrest (hf s a s₁ hfa hp)

/-! ## Lemmas about one step of the walk loop -/

theorem analyzeStep_oversized (cfg : Config) (st : WalkState) (p : String) (len : Nat)
    (c : Option String) (hbig : len / 1024 > cfg.analysis.max_file_kb) :
    analyzeStep cfg st (.file p (some len) c) = .ok st := by
  cases hex : should_exclude p cfg.project.exclude <;> simp [analyzeStep, hex, hbig]

theorem analyzeStep_oversized_id (cfg : Config) (st st' : WalkState) (p : String)
    (len : Nat) (c : Option String) (hbig : len / 1024 > cfg.analysis.max_file_kb)
    (h : analyzeStep cfg st (.file p (some len) c) = .ok st') : st' = st := by
  rw [analyzeStep_oversized cfg st p len c hbig] at h
  exact (Except.ok.inj h).symm

theorem analyzeStep_unsupported (cfg : Config) (st : WalkState) (p : String) (len : Nat)
    (c : Option String) (hdet : detect_language p = none) :
    analyzeStep cfg st (.file p (some len) c) = .ok st := by
  cases hex : should_exclude p cfg.project.exclude
  · by_cases hsz : len / 1024 > cfg.analysis.max_file_kb <;>
      simp [analyzeStep, hex, hsz, hdet]
  · simp [analyzeStep, hex]

theorem analyzeStep_unsupported_id (cfg : Config) (st st' : WalkState) (p : String)
    (meta : Option Nat) (c : Option String) (hdet : detect_language p = none)
    (h : analyzeStep cfg st (.file p meta c) = .ok st') : st' = st := by
  cases meta with
  | none =>
    cases hex : should_exclude p cfg.project.exclude with
    | false =>
      rw [show analyzeStep cfg st (.file p none c) = .error (.metadata p) by
        simp [analyzeStep, hex]] at h
      exact Except.noConfusion h
    | true =>
      rw [show analyzeStep cfg st (.file p none c) = .ok st by
        simp [analyzeStep, hex]] at h
      exact (Except.ok.inj h).symm
  | some len =>
    rw [analyzeStep_unsupported cfg st p len c hdet] at h
    exact (Except.ok.inj h).symm

theorem exists_ok_of_exceptIsOk {ε α : Type} (x : Except ε α) (h : exceptIsOk x = true) :
    ∃ a, x = .ok a := by
  cases x with
  | ok a => exact ⟨a, rfl⟩
  | error e => simp [exceptIsOk] at h

theorem analyzeStep_total (cfg : Config) (st : WalkState) (e : WalkEntry)
    (he : entryOk e = true) : ∃ st', analyzeStep cfg st e = .ok st' := by
  cases e with
  | entryErr => simp [entryOk] at he
  | dir p => exact ⟨st, rfl⟩
  | file p meta r =>
    cases meta with
    | none => simp [entryOk] at he
    | some n =>
      apply exists_ok_of_exceptIsOk
      cases hex : should_exclude p cfg.project.exclude with
      | true => simp [analyzeStep, hex, exceptIsOk]
      | false =>
        by_cases hsz : n / 1024 > cfg.analysis.max_file_kb
        · simp [analyzeStep, hex, hsz, exceptIsOk]
        · cases hdl : detect_language p with
          | none => simp [analyzeStep, hex, hsz, hdl, exceptIsOk]
          | some lang =>
            cases haf : analyze_file p lang r <;>
              simp [analyzeStep, hex, hsz, hdl, haf, exceptIsOk]

theorem exceptFoldl_analyzeStep_total (cfg : Config) (walk : List WalkEntry)
    (hok : ∀ e ∈ walk, entryOk e = true) :
    ∀ s, ∃ st, exceptFoldl (analyzeStep cfg) s walk = .ok st := by
  induction walk with
  | nil => intro s; exact ⟨s, rfl⟩
  | cons a as ih =>
    intro s
    obtain ⟨s₁, h₁⟩ := analyzeStep_total cfg s a (hok a (by simp))
    obtain ⟨st, h₂⟩ := ih (fun e he => hok e (by simp [he])) s₁
    refine ⟨st, ?_⟩
    simp only [exceptFoldl]
    rw [h₁]
    exact h₂

theorem exceptFoldl_analyzeStep_no_entryErr (cfg : Config) :
    ∀ (l : List WalkEntry) (s st : WalkState),
      exceptFoldl (analyzeStep cfg) s l = .ok st → ∀ x ∈ l, x ≠ .entryErr := by
  intro l
  induction l with
  | nil => intro s st _ x hx; cases hx
  | cons a as ih =>
    intro s st h x hx
    obtain ⟨s₁, hfa, hrest⟩ := exceptFoldl_cons_ok _ s st a as h
    cases hx with
    | head =>
      intro hcon
      subst hcon
      exact Except.noConfusion hfa
    | tail _ hx' => exact ih s₁ st hrest x hx'

/-! ## Lemmas about the entry-point inference -/

theorem wildcardScan_total (walk : List WalkEntry)
    (hne : ∀ x ∈ walk, x ≠ WalkEntry.entryErr) :
    ∀ acc, ∃ l, exceptFoldl wildcardStep acc walk = .ok l := by
  induction walk with
  | nil => intro acc; exact ⟨acc, rfl⟩
  | cons a as ih =>
    intro acc
    have ha : a ≠ WalkEntry.entryErr := hne a (by simp)
    have hstep : ∃ acc', wildcardStep acc a = .ok acc' := by
      cases a with
      | entryErr => exact absurd rfl ha
      | dir p => exact ⟨acc, rfl⟩
      | file p m r => exact ⟨_, rfl⟩
    obtain ⟨acc', hacc'⟩ := hstep
    obtain ⟨l, hl⟩ := ih (fun x hx => hne x (by simp [hx])) acc'
    refine ⟨l, ?_⟩
    simp only [exceptFoldl]
    rw [hacc']
    exact hl

theorem infer_entrypoints_total (repoPath : String) (walk : List WalkEntry)
    (cfg : Config) (hne : ∀ x ∈ walk, x ≠ WalkEntry.entryErr) :
    ∃ l, infer_entrypoints repoPath walk cfg = .ok l := by
  obtain ⟨w, hw⟩ := wildcardScan_total walk hne []
  have hstep : ∀ acc pat, ∃ acc', entrypointStep repoPath walk acc pat = .ok acc' := by
    intro acc pat
    unfold entrypointStep
    by_cases hc : containsSub pat "**" = true
    · rw [if_pos hc]
      rw [show wildcardScan walk = .ok w from hw]
      exact ⟨acc ++ w, rfl⟩
    · rw [if_neg hc]
      exact ⟨_, rfl⟩
  unfold infer_entrypoints
  generalize (cfg.analysis.infer_entrypoints.filterMap _) = acc0
  clear hw
  induction entrypointPatterns generalizing acc0 with
  | nil => exact ⟨acc0, rfl⟩
  | cons pat pats ih =>
    obtain ⟨acc₁, hacc₁⟩ := hstep acc0 pat
    obtain ⟨l, hl⟩ := ih acc₁
    refine ⟨l, ?_⟩
    simp only [exceptFoldl]
    rw [hacc₁]
    exact hl

/-! ## C5 — stats invariant -/

/-- **C5.** For every `Index` returned by `Analyzer::analyze_repo`,
`stats.files` equals the length of the `files` collection and
`stats.modules` equals the length of the `modules` collection. -/
theorem analyze_repo_stats_invariant (repoPath : String) (walk : List WalkEntry)
    (cfg : Config) (buildId : String) (idx : Index)
    (h : analyze_repo repoPath walk cfg buildId = .ok idx) :
    idx.stats.files = idx.files.length ∧ idx.stats.modules = idx.modules.length := by
  unfold analyze_repo at h
  cases hst : exceptFoldl (analyzeStep cfg) ⟨[], [], [], []⟩ walk with
  | error e => rw [hst] at h; exact Except.noConfusion h
  | ok st =>
    rw [hst] at h
    cases hep : infer_entrypoints repoPath walk cfg with
    | error e => rw [hep] at h; exact Except.noConfusion h
    | ok eps =>
      rw [hep] at h
      have h2 := Except.ok.inj h
      rw [← h2]
      exact ⟨rfl, rfl⟩

/-- A small concrete configuration used by the concrete-input theorems. -/
def wCfg : Config := ⟨⟨"Unnamed Project", []⟩, ⟨512, []⟩⟩

/-- A small concrete walk: the root directory and one readable Python
file. -/
def wWalk : List WalkEntry := [.dir "r", .file "r/a.py" (some 0) (some "")]

/-- The index `analyze_repo` produces on `wWalk`. -/
def wIdx : Index :=
  ⟨"id", "r", [⟨"r/a.py", "a", "py", 0, [], false, some ""⟩], [], ["py"], [], [],
   ⟨1, ["py"], 0⟩⟩

theorem analyze_repo_stats_invariant_witness :
    wIdx.stats.files = wIdx.files.length ∧ wIdx.stats.modules = wIdx.modules.length :=
  analyze_repo_stats_invariant "r" wWalk wCfg "id" wIdx rfl

/-! ## C10 — every FileRecord keeps its content, and size is its byte
length -/

/-- The invariant carried through the walk loop for C10. -/
def fileContentOk (f : FileInfo) : Prop :=
  f.content.isSome = true ∧ f.size = (f.content.getD "").utf8ByteSize

theorem analyze_file_contentOk (p lang : String) (r : Option String) (fi : FileInfo)
    (h : analyze_file p lang r = some fi) : fileContentOk fi := by
  cases r with
  | none => exact Option.noConfusion h
  | some c =>
    simp only [analyze_file] at h
    have h2 := Option.some.inj h
    rw [← h2]
    exact ⟨rfl, rfl⟩

/-- Characterization of the success branch of the walk loop body: an
included, small-enough, supported, readable file appends its record (and,
when it is a module, its module record), inserts its language, and inserts
its dependency tokens as keys. -/
theorem analyzeStep_file_success (cfg : Config) (st : WalkState) (p : String) (n : Nat)
    (r : Option String) (lang : String) (fi : FileInfo)
    (hex : should_exclude p cfg.project.exclude = false)
    (hsz : ¬n / 1024 > cfg.analysis.max_file_kb)
    (hdl : detect_language p = some lang)
    (haf : analyze_file p lang r = some fi) :
    analyzeStep cfg st (.file p (some n) r) =
      .ok { files := st.files ++ [fi],
            modules := if fi.is_module then
                st.modules ++ [{ path := p, name := fi.name, language := lang,
                                 dependencies := fi.dependencies }]
              else st.modules,
            dependencies := fi.dependencies.foldl insertDedup st.dependencies,
            languages := insertDedup st.languages lang } := by
  cases him : fi.is_module <;> simp [analyzeStep, hex, hsz, hdl, haf, him]

theorem analyzeStep_preserves_contentOk (cfg : Config) (st : WalkState) (e : WalkEntry)
    (st' : WalkState) (h : analyzeStep cfg st e = .ok st')
    (hinv : ∀ f ∈ st.files, fileContentOk f) :
    ∀ f ∈ st'.files, fileContentOk f := by
  cases e with
  | entryErr => exact Except.noConfusion h
  | dir p =>
    rw [← Except.ok.inj h]
    exact hinv
  | file p meta r =>
    cases hex : should_exclude p cfg.project.exclude with
    | true =>
      rw [show analyzeStep cfg st (.file p meta r) = .ok st by simp [analyzeStep, hex]] at h
      rw [← Except.ok.inj h]
      exact hinv
    | false =>
      cases meta with
      | none =>
        rw [show analyzeStep cfg st (.file p none r) = .error (.metadata p) by
          simp [analyzeStep, hex]] at h
        exact Except.noConfusion h
      | some n =>
        by_cases hsz : n / 1024 > cfg.analysis.max_file_kb
        · rw [analyzeStep_oversized cfg st p n r hsz] at h
          rw [← Except.ok.inj h]
          exact hinv
        · cases hdl : detect_language p with
          | none =>
            rw [analyzeStep_unsupported cfg st p n r hdl] at h
            rw [← Except.ok.inj h]
            exact hinv
          | some lang =>
            cases haf : analyze_file p lang r with
            | none =>
              rw [show analyzeStep cfg st (.file p (some n) r) =
                  .ok { st with languages := insertDedup st.languages lang } by
                simp [analyzeStep, hex, hsz, hdl, haf]] at h
              rw [← Except.ok.inj h]
              exact hinv
            | some fi =>
              rw [analyzeStep_file_success cfg st p n r lang fi hex hsz hdl haf] at h
              rw [← Except.ok.inj h]
              intro f hf
              rcases List.mem_append.mp hf with hl | hr
              · exact hinv f hl
              · rw [List.mem_singleton.mp hr]
                exact analyze_file_contentOk p lang r fi haf

/-- **C10.** Every `FileRecord` in an `Index` returned by
`Analyzer::analyze_repo` retains its full text in `content`, and its
`size` field equals the byte length of that text, so no freshly indexed
file is ever excluded from search for lack of retained content. -/
theorem analyze_repo_retains_content (repoPath : String) (walk : List WalkEntry)
    (cfg : Config) (buildId : String) (idx : Index)
    (h : analyze_repo repoPath walk cfg buildId = .ok idx) :
    ∀ f ∈ idx.files, f.content.isSome = true ∧ f.size = (f.content.getD "").utf8ByteSize := by
  unfold analyze_repo at h
  cases hst : exceptFoldl (analyzeStep cfg) ⟨[], [], [], []⟩ walk with
  | error e => rw [hst] at h; exact Except.noConfusion h
  | ok st =>
    rw [hst] at h
    cases hep : infer_entrypoints repoPath walk cfg with
    | error e => rw [hep] at h; exact Except.noConfusion h
    | ok eps =>
      rw [hep] at h
      rw [← Except.ok.inj h]
      exact exceptFoldl_invariant (analyzeStep cfg) (fun s => ∀ f ∈ s.files, fileContentOk f)
        (analyzeStep_preserves_contentOk cfg) walk ⟨[], [], [], []⟩ st hst
        (by intro f hf; cases hf)

/-- The single file record of `wIdx`. -/
def wFile : FileInfo := ⟨"r/a.py", "a", "py", 0, [], false, some ""⟩

theorem analyze_repo_retains_content_witness :
    wFile.content.isSome = true ∧ wFile.size = (wFile.content.getD "").utf8ByteSize :=
  analyze_repo_retains_content "r" wWalk wCfg "id" wIdx rfl wFile (by simp [wIdx, wFile])

/-! ## C1 — which per-file errors are recovered -/

/-- **C1 (counterexample).** A per-file error is not always recovered: a
metadata query failure on a single file aborts the whole build through `?`,
so `analyze_repo` returns an error instead of an `Index`. -/
theorem analyze_repo_metadata_failure_fatal :
    analyze_repo "r" [.file "r/x.rs" none (some "")] wCfg "id"
      = .error (.metadata "r/x.rs") := rfl

/-- **C1 (amended).** In the repository walk only the failures inside
`analyze_file` — in this implementation, a failed `fs::read_to_string` —
are recovered as warnings: when the traversal yields no directory-entry
error and every file's metadata query succeeds, `analyze_repo` returns an
`Index` even if arbitrarily many individual file reads fail.  (
directory-entry errors and metadata failures, by contrast, propagate
through `?` and abort the build, as the counterexample shows.) -/
theorem analyze_repo_recovers_read_failures (repoPath : String) (walk : List WalkEntry)
    (cfg : Config) (buildId : String)
    (hok : ∀ e ∈ walk, entryOk e = true) :
    exceptIsOk (analyze_repo repoPath walk cfg buildId) = true := by
  obtain ⟨st, hst⟩ := exceptFoldl_analyzeStep_total cfg walk hok ⟨[], [], [], []⟩
  have hne : ∀ x ∈ walk, x ≠ WalkEntry.entryErr := by
    intro x hx hcon
    subst hcon
    have := hok _ hx
    simp [entryOk] at this
  obtain ⟨eps, heps⟩ := infer_entrypoints_total repoPath walk cfg hne
  unfold analyze_repo
  rw [hst, heps]
  rfl

/-- A walk with one unreadable (but stat-able) file and one readable
file. -/
def wWalkRead : List WalkEntry :=
  [.dir "r", .file "r/b.rs" (some 1) none, .file "r/a.py" (some 0) (some "")]

theorem analyze_repo_recovers_read_failures_witness :
    exceptIsOk (analyze_repo "r" wWalkRead wCfg "id") = true :=
  analyze_repo_recovers_read_failures "r" wWalkRead wCfg "id" (by decide)

/-! ## Provenance of file and module records -/

theorem analyze_file_path (p lang : String) (r : Option String) (fi : FileInfo)
    (h : analyze_file p lang r = some fi) : fi.path = p := by
  cases r with
  | none => exact Option.noConfusion h
  | some c =>
    simp only [analyze_file] at h
    rw [← Option.some.inj h]

theorem analyzeStep_records (cfg : Config) (st : WalkState) (e : WalkEntry)
    (st' : WalkState) (h : analyzeStep cfg st e = .ok st') :
    (∀ f ∈ st'.files, f ∈ st.files ∨ ∃ meta r, e = .file f.path meta r) ∧
    (∀ m ∈ st'.modules, m ∈ st.modules ∨ ∃ meta r, e = .file m.path meta r) := by
  cases e with
  | entryErr => exact Except.noConfusion h
  | dir p =>
    rw [← Except.ok.inj h]
    exact ⟨fun f hf => .inl hf, fun m hm => .inl hm⟩
  | file p meta r =>
    cases hex : should_exclude p cfg.project.exclude with
    | true =>
      rw [show analyzeStep cfg st (.file p meta r) = .ok st by simp [analyzeStep, hex]] at h
      rw [← Except.ok.inj h]
      exact ⟨fun f hf => .inl hf, fun m hm => .inl hm⟩
    | false =>
      cases meta with
      | none =>
        rw [show analyzeStep cfg st (.file p none r) = .error (.metadata p) by
          simp [analyzeStep, hex]] at h
        exact Except.noConfusion h
      | some n =>
        by_cases hsz : n / 1024 > cfg.analysis.max_file_kb
        · rw [analyzeStep_oversized cfg st p n r hsz] at h
          rw [← Except.ok.inj h]
          exact ⟨fun f hf => .inl hf, fun m hm => .inl hm⟩
        · cases hdl : detect_language p with
          | none =>
            rw [analyzeStep_unsupported cfg st p n r hdl] at h
            rw [← Except.ok.inj h]
            exact ⟨fun f hf => .inl hf, fun m hm => .inl hm⟩
          | some lang =>
            cases haf : analyze_file p lang r with
            | none =>
              rw [show analyzeStep cfg st (.file p (some n) r) =
                  .ok { st with languages := insertDedup st.languages lang } by
                simp [analyzeStep, hex, hsz, hdl, haf]] at h
              rw [← Except.ok.inj h]
              exact ⟨fun f hf => .inl hf, fun m hm => .inl hm⟩
            | some fi =>
              rw [analyzeStep_file_success cfg st p n r lang fi hex hsz hdl haf] at h
              rw [← Except.ok.inj h]
              constructor
              · intro f hf
                rcases List.mem_append.mp hf with hl | hr
                · exact .inl hl
                · right
                  rw [List.mem_singleton.mp hr]
                  exact ⟨some n, r, by rw [analyze_file_path p lang r fi haf]⟩
              · intro m hm
                by_cases him : fi.is_module = true
                · rw [if_pos him] at hm
                  rcases List.mem_append.mp hm with hl | hr
                  · exact .inl hl
                  · right
                    rw [List.mem_singleton.mp hr]
                    exact ⟨some n, r, rfl⟩
                · rw [if_neg him] at hm
                  exact .inl hm

theorem exceptFoldl_records (cfg : Config) :
    ∀ (l : List WalkEntry) (s st : WalkState),
      exceptFoldl (analyzeStep cfg) s l = .ok st →
      (∀ f ∈ st.files, f ∈ s.files ∨ ∃ meta r, (WalkEntry.file f.path meta r) ∈ l) ∧
      (∀ m ∈ st.modules, m ∈ s.modules ∨ ∃ meta r, (WalkEntry.file m.path meta r) ∈ l) := by
  intro l
  induction l with
  | nil =>
    intro s st h
    rw [← Except.ok.inj h]
    exact ⟨fun f hf => .inl hf, fun m hm => .inl hm⟩
  | cons a as ih =>
    intro s st h
    obtain ⟨s₁, hfa, hrest⟩ := exceptFoldl_cons_ok _ s st a as h
    obtain ⟨ihf, ihm⟩ := ih s₁ st hrest
    obtain ⟨stf, stm⟩ := analyzeStep_records cfg s a s₁ hfa
    constructor
    · intro f hf
      rcases ihf f hf with h1 | ⟨meta, r, hmem⟩
      · rcases stf f h1 with h2 | ⟨meta, r, he⟩
        · exact .inl h2
        · exact .inr ⟨meta, r, by rw [← he]; exact List.mem_cons_self a as⟩
      · exact .inr ⟨meta, r, List.mem_cons_of_mem a hmem⟩
    · intro m hm
      rcases ihm m hm with h1 | ⟨meta, r, hmem⟩
      · rcases stm m h1 with h2 | ⟨meta, r, he⟩
        · exact .inl h2
        · exact .inr ⟨meta, r, by rw [← he]; exact List.mem_cons_self a as⟩
      · exact .inr ⟨meta, r, List.mem_cons_of_mem a hmem⟩

/-! ## Skipped walk events leave the walked collections unchanged -/

theorem analyze_repo_skip (repoPath : String) (w₁ w₂ : List WalkEntry) (cfg : Config)
    (buildId : String) (ev : WalkEntry) (idx : Index)
    (hid : ∀ st st', analyzeStep cfg st ev = .ok st' → st' = st)
    (h : analyze_repo repoPath (w₁ ++ ev :: w₂) cfg buildId = .ok idx) :
    ∃ st, exceptFoldl (analyzeStep cfg) ⟨[], [], [], []⟩ (w₁ ++ w₂) = .ok st ∧
      st.files = idx.files ∧ st.modules = idx.modules ∧
      coreView (analyze_repo repoPath (w₁ ++ w₂) cfg buildId) =
        some (idx.files, idx.modules, idx.languages, idx.dependencies, idx.stats) := by
  unfold analyze_repo at h
  cases heqF : exceptFoldl (analyzeStep cfg) ⟨[], [], [], []⟩ (w₁ ++ ev :: w₂) with
  | error e => rw [heqF] at h; exact Except.noConfusion h
  | ok st =>
    rw [heqF] at h
    cases heqE : infer_entrypoints repoPath (w₁ ++ ev :: w₂) cfg with
    | error e => rw [heqE] at h; exact Except.noConfusion h
    | ok eps =>
      rw [heqE] at h
      have hidx := Except.ok.inj h
      obtain ⟨s₁, hW₁, hRest⟩ := exceptFoldl_append_ok _ _ _ _ _ heqF
      obtain ⟨s₂, hStep, hW₂⟩ := exceptFoldl_cons_ok _ _ _ _ _ hRest
      rw [hid s₁ s₂ hStep] at hW₂
      have hRed : exceptFoldl (analyzeStep cfg) ⟨[], [], [], []⟩ (w₁ ++ w₂) = .ok st :=
        exceptFoldl_append_of _ _ _ _ _ _ hW₁ hW₂
      have hne : ∀ x ∈ w₁ ++ w₂, x ≠ WalkEntry.entryErr := by
        intro x hx
        apply exceptFoldl_analyzeStep_no_entryErr cfg (w₁ ++ ev :: w₂) _ _ heqF
        rcases List.mem_append.mp hx with h1 | h2
        · exact List.mem_append.mpr (.inl h1)
        · exact List.mem_append.mpr (.inr (List.mem_cons_of_mem ev h2))
      obtain ⟨eps', hE'⟩ := infer_entrypoints_total repoPath (w₁ ++ w₂) cfg hne
      refine ⟨st, hRed, by rw [← hidx], by rw [← hidx], ?_⟩
      unfold analyze_repo
      rw [hRed, hE', ← hidx]
      rfl

/-- Converts the decidable `noFileEvent` check into its logical reading. -/
theorem noFileEvent_spec (walk : List WalkEntry) (p : String)
    (h : noFileEvent walk p = true) :
    ∀ meta r, WalkEntry.file p meta r ∉ walk := by
  intro meta r hmem
  have := List.all_eq_true.mp h _ hmem
  simp at this

/-! ## C6 — oversized files are skipped entirely -/

/-- **C6.** A walked regular file whose metadata size exceeds
`config.analysis.max_file_kb` kilobytes (integer division by 1024) is
skipped: removing its walk event changes none of the `files`, `modules`,
`languages`, `dependencies` collections or the stats of the returned
`Index`, and (as long as no other walk event carries the same path) its
path occurs in neither the file records nor the module records. -/
theorem oversized_file_not_indexed (repoPath : String) (w₁ w₂ : List WalkEntry)
    (cfg : Config) (buildId : String) (p : String) (len : Nat) (c : Option String)
    (idx : Index)
    (hbig : len / 1024 > cfg.analysis.max_file_kb)
    (hup : noFileEvent (w₁ ++ w₂) p = true)
    (h : analyze_repo repoPath (w₁ ++ WalkEntry.file p (some len) c :: w₂) cfg buildId
      = .ok idx) :
    coreView (analyze_repo repoPath (w₁ ++ w₂) cfg buildId) =
      some (idx.files, idx.modules, idx.languages, idx.dependencies, idx.stats) ∧
    p ∉ idx.files.map FileInfo.path ∧ p ∉ idx.modules.map ModuleInfo.path := by
  obtain ⟨st, hRed, hf, hm, hcore⟩ :=
    analyze_repo_skip repoPath w₁ w₂ cfg buildId (.file p (some len) c) idx
      (fun st st' hstep => analyzeStep_oversized_id cfg st st' p len c hbig hstep) h
  have hup' := noFileEvent_spec (w₁ ++ w₂) p hup
  obtain ⟨hrecF, hrecM⟩ := exceptFoldl_records cfg (w₁ ++ w₂) ⟨[], [], [], []⟩ st hRed
  refine ⟨hcore, ?_, ?_⟩
  · intro hmem
    obtain ⟨f, hfmem, hfp⟩ := List.mem_map.mp hmem
    rw [← hf] at hfmem
    rcases hrecF f hfmem with h1 | ⟨meta, r, hmem'⟩
    · cases h1
    · rw [hfp] at hmem'
      exact hup' meta r hmem'
  · intro hmem
    obtain ⟨m, hmmem, hmp⟩ := List.mem_map.mp hmem
    rw [← hm] at hmmem
    rcases hrecM m hmmem with h1 | ⟨meta, r, hmem'⟩
    · cases h1
    · rw [hmp] at hmem'
      exact hup' meta r hmem'

/-- The full index produced when walking one oversized file together with
`wWalk`. -/
def wIdxBig : Index :=
  ⟨"id", "r", [⟨"r/a.py", "a", "py", 0, [], false, some ""⟩], [], ["py"], [], [],
   ⟨1, ["py"], 0⟩⟩

theorem oversized_file_not_indexed_witness :
    coreView (analyze_repo "r" ([.dir "r"] ++ [.file "r/a.py" (some 0) (some "")]) wCfg "id") =
      some (wIdxBig.files, wIdxBig.modules, wIdxBig.languages, wIdxBig.dependencies,
            wIdxBig.stats) ∧
    "r/big.py" ∉ wIdxBig.files.map FileInfo.path ∧
    "r/big.py" ∉ wIdxBig.modules.map ModuleInfo.path :=
  oversized_file_not_indexed "r" [.dir "r"] [.file "r/a.py" (some 0) (some "")] wCfg "id"
    "r/big.py" (1024 * 1024) (some "x") wIdxBig (by decide) (by decide) (by rfl)

/-! ## C7 — the language table, and unsupported files are skipped
entirely -/

theorem detect_language_eq_table (q : String) :
    detect_language q = (rustExtension (fileName q)).bind specLanguageTable := by
  unfold detect_language
  cases rustExtension (fileName q) with
  | none => rfl
  | some ext =>
    show (match ext with
      | "ts" | "tsx" => some "ts"
      | "js" | "jsx" | "mjs" | "cjs" => some "js"
      | "py" => some "py"
      | "go" => some "go"
      | "rs" => some "rs"
      | "java" => some "java"
      | _ => none) = specLanguageTable ext
    split <;> simp_all [specLanguageTable]

/-- **C7.** `detect_language` is a pure function of the file extension,
agreeing with the spec's fixed case-sensitive table, and a walked file whose
extension is not in the table is skipped entirely: removing its walk event
changes none of the `files`, `modules`, `languages`, `dependencies`
collections or the stats of the returned `Index`, and (as long as no other
walk event carries the same path) its path occurs in neither the file
records nor the module records. -/
theorem unsupported_extension_skipped (repoPath : String) (w₁ w₂ : List WalkEntry)
    (cfg : Config) (buildId : String) (p : String) (meta : Option Nat)
    (c : Option String) (idx : Index)
    (hdet : detect_language p = none)
    (hup : noFileEvent (w₁ ++ w₂) p = true)
    (h : analyze_repo repoPath (w₁ ++ WalkEntry.file p meta c :: w₂) cfg buildId
      = .ok idx) :
    (∀ q : String, detect_language q = (rustExtension (fileName q)).bind specLanguageTable) ∧
    coreView (analyze_repo repoPath (w₁ ++ w₂) cfg buildId) =
      some (idx.files, idx.modules, idx.languages, idx.dependencies, idx.stats) ∧
    p ∉ idx.files.map FileInfo.path ∧ p ∉ idx.modules.map ModuleInfo.path := by
  obtain ⟨st, hRed, hf, hm, hcore⟩ :=
    analyze_repo_skip repoPath w₁ w₂ cfg buildId (.file p meta c) idx
      (fun st st' hstep => analyzeStep_unsupported_id cfg st st' p meta c hdet hstep) h
  have hup' := noFileEvent_spec (w₁ ++ w₂) p hup
  obtain ⟨hrecF, hrecM⟩ := exceptFoldl_records cfg (w₁ ++ w₂) ⟨[], [], [], []⟩ st hRed
  refine ⟨detect_language_eq_table, hcore, ?_, ?_⟩
  · intro hmem
    obtain ⟨f, hfmem, hfp⟩ := List.mem_map.mp hmem
    rw [← hf] at hfmem
    rcases hrecF f hfmem with h1 | ⟨meta', r, hmem'⟩
    · cases h1
    · rw [hfp] at hmem'
      exact hup' meta' r hmem'
  · intro hmem
    obtain ⟨m, hmmem, hmp⟩ := List.mem_map.mp hmem
    rw [← hm] at hmmem
    rcases hrecM m hmmem with h1 | ⟨meta', r, hmem'⟩
    · cases h1
    · rw [hmp] at hmem'
      exact hup' meta' r hmem'

theorem unsupported_extension_skipped_witness :
    (∀ q : String, detect_language q = (rustExtension (fileName q)).bind specLanguageTable) ∧
    coreView (analyze_repo "r" ([.dir "r"] ++ [.file "r/a.py" (some 0) (some "")]) wCfg "id") =
      some (wIdx.files, wIdx.modules, wIdx.languages, wIdx.dependencies, wIdx.stats) ∧
    "r/readme.md" ∉ wIdx.files.map FileInfo.path ∧
    "r/readme.md" ∉ wIdx.modules.map ModuleInfo.path :=
  unsupported_extension_skipped "r" [.dir "r"] [.file "r/a.py" (some 0) (some "")] wCfg "id"
    "r/readme.md" (some 0) (some "") wIdx rfl (by decide) rfl

/-! ## C2 — the glob translation of `should_exclude` -/

/-- **C2 (divergence).** The replacement chain of `should_exclude` first
turns `**` into `.*`, but the subsequent `*`-replacement rewrites that
`.*` into `.[^/]*` and the final `.`-escaping turns it into `\.[^/]*`, so
`**` ends up requiring a literal dot followed by a run of non-separator
characters.  Hence the default pattern `**/node_modules/**` fails to
exclude `a/node_modules/b`, which the spec's restricted-glob semantics
(`specShouldExclude`) does exclude; the code's own comment (a simple glob
matcher supporting `**` and `*`) documents the spec's intent. -/
theorem should_exclude_glob_translation_bug :
    should_exclude "a/node_modules/b" ["**/node_modules/**"] = false ∧
    specShouldExclude "a/node_modules/b" ["**/node_modules/**"] = true ∧
    globToRegex "**/node_modules/**" = "\\.[^/]*/node_modules/\\.[^/]*" := by decide

/-! ## C8 — the Rust dependency extractor on the spec's examples -/

/-- **C8.** `extract_rust_dependencies` on `"use foo::bar::Baz;"` yields
exactly `["foo"]`, and on `"use baz;"` (no `::`, no brace group) yields the
empty sequence. -/
theorem extract_rust_dependencies_examples :
    extract_rust_dependencies "use foo::bar::Baz;" = ["foo"] ∧
    extract_rust_dependencies "use baz;" = [] := by decide

/-! ## C9 — search is deterministic -/

/-- **C9.** `Index::search` is a pure function of the file collection, the
query and `k`: two calls with the same query and `k` on indexes with the
same (unchanged) file collection — in particular two calls on the very same
`Index` — return the same hit sequence, with the same paths, scores and
excerpts in the same order. -/
theorem search_deterministic (i₁ i₂ : Index) (query : String) (k : Nat)
    (hfiles : i₁.files = i₂.files) :
    i₁.search query k = i₂.search query k := by
  unfold Index.search
  rw [hfiles]

/-- Two indexes sharing `wIdx`'s files but nothing else. -/
def wIdxSearchA : Index :=
  ⟨"build-1", "r", wIdx.files, [], ["py"], [], [], ⟨1, ["py"], 0⟩⟩

/-- A second build over the same files with a different generated id. -/
def wIdxSearchB : Index :=
  ⟨"build-2", "s", wIdx.files, [], [], [], [], ⟨1, [], 0⟩⟩

theorem search_deterministic_witness :
    wIdxSearchA.search "a" 5 = wIdxSearchB.search "a" 5 :=
  search_deterministic wIdxSearchA wIdxSearchB "a" 5 rfl

/-! ## C3 — hard failure for sections, soft failure for module tasks -/

/-- The page count a section task contributes when it succeeds. -/
def TaskOutcome.valD : TaskOutcome Nat → Nat
  | .ok n => n
  | .err => 0
  | .panicked => 0

theorem collectPages_all_ok (outs : List (TaskOutcome Nat))
    (h : ∀ o ∈ outs, o.isOk = true) :
    ∀ acc, collectPages acc outs = .ok (acc + (outs.map TaskOutcome.valD).sum) := by
  induction outs with
  | nil => intro acc; simp [collectPages]
  | cons o rest ih =>
    intro acc
    cases o with
    | ok n =>
      simp only [collectPages]
      rw [ih (fun x hx => h x (by simp [hx])) (acc + n)]
      simp [TaskOutcome.valD, Nat.add_assoc]
    | err =>
      have := h .err (by simp)
      simp [TaskOutcome.isOk] at this
    | panicked =>
      have := h .panicked (by simp)
      simp [TaskOutcome.isOk] at this

theorem collectPages_fail (outs : List (TaskOutcome Nat)) :
    ∀ acc, (∃ o ∈ outs, o.isOk = false) →
      exceptIsOk (collectPages acc outs) = false := by
  induction outs with
  | nil =>
    intro acc h
    obtain ⟨o, ho, _⟩ := h
    cases ho
  | cons o rest ih =>
    intro acc h
    cases o with
    | ok n =>
      obtain ⟨o', ho', hfalse⟩ := h
      cases ho' with
      | head => simp [TaskOutcome.isOk] at hfalse
      | tail _ hmem => exact ih (acc + n) ⟨o', hmem, hfalse⟩
    | err => simp [collectPages, exceptIsOk]
    | panicked => simp [collectPages, exceptIsOk]

theorem modulesBody_filter (modules : List ModuleInfo)
    (run : ModuleInfo → TaskOutcome String) :
    modulesBody (modules.filter (fun m => (run m).isOk)) run = modulesBody modules run := by
  unfold modulesBody
  suffices haux : ∀ (l : List ModuleInfo) (acc : String),
      (l.filter (fun m => (run m).isOk)).foldl
          (fun acc m =>
            match run m with
            | .ok c => acc ++ c ++ moduleSep
            | _ => acc) acc
        = l.foldl
            (fun acc m =>
              match run m with
              | .ok c => acc ++ c ++ moduleSep
              | _ => acc) acc from haux modules ""
  intro l
  induction l with
  | nil => intro acc; rfl
  | cons m ms ih =>
    intro acc
    cases hr : run m with
    | ok c =>
      rw [List.filter_cons_of_pos (by simp [hr, TaskOutcome.isOk])]
      simp only [List.foldl_cons, hr]
      exact ih _
    | err =>
      rw [List.filter_cons_of_neg (by simp [hr, TaskOutcome.isOk])]
      simp only [List.foldl_cons, hr]
      exact ih acc
    | panicked =>
      rw [List.filter_cons_of_neg (by simp [hr, TaskOutcome.isOk])]
      simp only [List.foldl_cons, hr]
      exact ih acc

/-- **C3.** In `build_wiki`, section tasks fail hard and module tasks fail
soft: if any section task of the table of contents returns an error or
panics, the whole call returns an error (no `WikiResult` is produced);
whereas when every section task succeeds, the build succeeds even if module
tasks fail, and the concatenated modules output contains exactly the
successful modules' segments — the failing modules' segments are omitted
and every other module's contribution is kept. -/
theorem build_wiki_error_policy (index : Index) (toc : List String)
    (sectionRun : String → TaskOutcome Nat)
    (moduleRun : ModuleInfo → TaskOutcome String) :
    ((∃ s ∈ toc, (sectionRun s).isOk = false) →
        exceptIsOk (build_wiki index toc sectionRun moduleRun) = false) ∧
    ((∀ s ∈ toc, (sectionRun s).isOk = true) →
        build_wiki index toc sectionRun moduleRun =
          .ok ({ ok := true, site_dir := "book",
                 pages := (toc.map (fun s => (sectionRun s).valD)).sum },
               if toc.contains "modules" then
                 some (modulesHeader index.modules
                   ++ modulesBody (index.modules.filter (fun m => (moduleRun m).isOk))
                        moduleRun)
               else none)) := by
  constructor
  · intro h
    obtain ⟨s, hs, hfail⟩ := h
    unfold build_wiki
    have hf : exceptIsOk (collectPages 0 (toc.map sectionRun)) = false :=
      collectPages_fail (toc.map sectionRun) 0
        ⟨sectionRun s, List.mem_map_of_mem sectionRun hs, hfail⟩
    cases hc : collectPages 0 (toc.map sectionRun) with
    | error e => rfl
    | ok n => rw [hc] at hf; simp [exceptIsOk] at hf
  · intro hall
    unfold build_wiki
    rw [collectPages_all_ok (toc.map sectionRun)
      (by
        intro o ho
        obtain ⟨s, hs, hso⟩ := List.mem_map.mp ho
        rw [← hso]
        exact hall s hs) 0]
    rw [modulesBody_filter]
    simp only [Nat.zero_add, List.map_map]
    rfl

/-- Three modules used by the pipeline witnesses. -/
def wMods : List ModuleInfo :=
  [⟨"r/src/a.rs", "a", "rs", []⟩, ⟨"r/src/b.rs", "b", "rs", []⟩,
   ⟨"r/src/c.rs", "c", "rs", []⟩]

/-- An index holding `wMods`. -/
def wIdxMods : Index := ⟨"id", "r", [], wMods, ["rs"], [], [], ⟨0, ["rs"], 3⟩⟩

/-- A module-task assignment in which exactly the middle module fails. -/
def wModuleRun : ModuleInfo → TaskOutcome String :=
  fun m => if m.name == "b" then .err else .ok ("## " ++ m.name)

/-- A section-task assignment in which every section succeeds. -/
def wSectionRunOk : String → TaskOutcome Nat := fun _ => .ok 1

/-- A section-task assignment in which the `overview` section fails. -/
def wSectionRunFail : String → TaskOutcome Nat :=
  fun s => if s == "overview" then .err else .ok 1

theorem build_wiki_error_policy_witness :
    exceptIsOk (build_wiki wIdxMods ["overview", "modules"] wSectionRunFail wModuleRun)
        = false ∧
    build_wiki wIdxMods ["overview", "modules"] wSectionRunOk wModuleRun =
      .ok ({ ok := true, site_dir := "book",
             pages := ((["overview", "modules"].map
               (fun s => (wSectionRunOk s).valD))).sum },
           if ["overview", "modules"].contains "modules" then
             some (modulesHeader wIdxMods.modules
               ++ modulesBody (wIdxMods.modules.filter (fun m => (wModuleRun m).isOk))
                    wModuleRun)
           else none) :=
  ⟨(build_wiki_error_policy wIdxMods ["overview", "modules"] wSectionRunFail wModuleRun).1
      ⟨"overview", by decide, by decide⟩,
   (build_wiki_error_policy wIdxMods ["overview", "modules"] wSectionRunOk wModuleRun).2
      (by decide)⟩

/-! ## C4 — module concatenation order is `Index.modules` order, not
completion order -/

theorem completeAll_foldl (run : Nat → Option String) :
    ∀ (schedule : List Nat) (buf : Nat → Option String) (j : Nat),
      schedule.foldl (fun b i => fun j' => if j' = i then run i else b j') buf j
        = if j ∈ schedule then run j else buf j := by
  intro schedule
  induction schedule with
  | nil => intro buf j; simp
  | cons i rest ih =>
    intro buf j
    simp only [List.foldl_cons]
    rw [ih]
    by_cases hj : j ∈ rest
    · simp [hj]
    · by_cases hji : j = i
      · subst hji
        simp [hj]
      · simp [hj, hji]

theorem completeAll_eq (run : Nat → Option String) (schedule : List Nat) (j : Nat) :
    completeAll run schedule j = if j ∈ schedule then run j else none :=
  completeAll_foldl run schedule (fun _ => none) j

theorem concatBuffers_succ (n : Nat) (buf : Nat → Option String) :
    concatBuffers (n + 1) buf =
      match buf n with
      | some c => concatBuffers n buf ++ c ++ moduleSep
      | none => concatBuffers n buf := by
  unfold concatBuffers
  rw [List.range_succ, List.foldl_append]
  rfl

theorem concatBuffers_congr (n : Nat) (buf buf' : Nat → Option String)
    (h : ∀ j < n, buf j = buf' j) : concatBuffers n buf = concatBuffers n buf' := by
  induction n with
  | zero => rfl
  | succ n ih =>
    rw [concatBuffers_succ, concatBuffers_succ,
        ih (fun j hj => h j (Nat.lt_succ_of_lt hj)), h n (Nat.lt_succ_self n)]

theorem taskResult_zero (m : ModuleInfo) (ms : List ModuleInfo)
    (run : ModuleInfo → TaskOutcome String) :
    taskResult (m :: ms) run 0 =
      match run m with
      | .ok c => some c
      | _ => none := by
  simp [taskResult]

theorem taskResult_succ (m : ModuleInfo) (ms : List ModuleInfo)
    (run : ModuleInfo → TaskOutcome String) (j : Nat) :
    taskResult (m :: ms) run (j + 1) = taskResult ms run j := by
  simp [taskResult]

theorem concatBuffers_taskResult (run : ModuleInfo → TaskOutcome String) :
    ∀ (modules : List ModuleInfo),
      concatBuffers modules.length (taskResult modules run) = modulesBody modules run := by
  suffices haux : ∀ (modules : List ModuleInfo) (acc : String),
      (List.range modules.length).foldl
          (fun a j =>
            match taskResult modules run j with
            | some c => a ++ c ++ moduleSep
            | none => a) acc
        = modules.foldl
            (fun a m =>
              match run m with
              | .ok c => a ++ c ++ moduleSep
              | _ => a) acc by
    intro modules
    exact haux modules ""
  intro modules
  induction modules with
  | nil => intro acc; rfl
  | cons m ms ih =>
    intro acc
    rw [List.length_cons, List.range_succ_eq_map, List.foldl_cons, List.foldl_map]
    simp only [taskResult_succ, taskResult_zero]
    cases hr : run m with
    | ok c => simp only [List.foldl_cons, hr]; exact ih _
    | err => simp only [List.foldl_cons, hr]; exact ih acc
    | panicked => simp only [List.foldl_cons, hr]; exact ih acc

/-- **C4.** The per-module text segments are concatenated in exactly the
order the `ModuleRecord`s appear in `Index.modules`, never in
task-completion order: running the module tasks to completion under any
schedule (any permutation of the task indices — including the reversed
one) and then reading the per-task buffers in spawn order yields exactly
the fan-in concatenation `modulesBody`, which `build_wiki` writes; the
output is therefore reproducible for fixed modules and fixed per-module
results. -/
theorem modules_concat_order_independent (modules : List ModuleInfo)
    (moduleRun : ModuleInfo → TaskOutcome String) (schedule : List Nat)
    (hperm : schedule.Perm (List.range modules.length)) :
    concatBuffers modules.length (completeAll (taskResult modules moduleRun) schedule)
      = modulesBody modules moduleRun := by
  rw [← concatBuffers_taskResult moduleRun modules]
  apply concatBuffers_congr
  intro j hj
  rw [completeAll_eq]
  have hmem : j ∈ schedule := hperm.mem_iff.mpr (List.mem_range.mpr hj)
  simp [hmem]

theorem modules_concat_order_independent_witness :
    concatBuffers wMods.length (completeAll (taskResult wMods wModuleRun) [2, 1, 0])
      = modulesBody wMods wModuleRun :=
  modules_concat_order_independent wMods wModuleRun [2, 1, 0] (by decide)

end DeepRepoSlides
